import Mathlib

/-!
Verification of the invoice watch-and-forward proxy engine of
cash-by-invoice (src/main.rs) against its specification.

The development embeds, as executable Lean definitions:

* the routing-fee computation of the wait-invoice loop (main.rs:257),
  including the exact IEEE-754 binary32 arithmetic the Rust expression
  `(amount_sats as f32 * 0.01).ceil() as u64` performs;
* the checkpoint file encoding and the startup read/repair logic
  (main.rs:232-241, 427-445);
* the `invoice_stream` long-poll loop (main.rs:362-411) as a function of
  the list of RPC outcomes it observes, producing its effect trace, its
  yielded events and its final resume index, or the message of the
  `expect("Wrong response from CLN")` failure;
* one iteration of the forwarding loop (main.rs:251-326) over a Pending
  Invoice Ledger.  The database and mint modules are not part of the
  source tree; the Ledger is modelled from the spec's collaborator
  contract (section 4.3: `get`, `put`, `remove`, keyed by payment hash)
  as an association list, and the mint and pay collaborators appear as
  their observed outcomes.

Filesystem writes and database mutations are modelled as succeeding; the
source logs and continues on their failure, and no claim below is about
those failure paths.
-/

/-! ## Fee model: exact binary32 arithmetic on natural numbers -/

/-- Round `n / d` to the nearest integer, ties to even (IEEE-754 default
rounding expressed on natural numbers; meaningful for `d > 0`). -/
def roundNE (n d : Nat) : Nat :=
  if 2 * (n % d) < d then n / d
  else if d < 2 * (n % d) then n / d + 1
  else if n / d % 2 = 0 then n / d else n / d + 1

/-- Number of binary digits of `n`, with structural fuel (exact for `n < 2^fuel`). -/
def bitsF : Nat → Nat → Nat
  | 0, _ => 0
  | f + 1, n => if n = 0 then 0 else bitsF f (n / 2) + 1

/-- Bit length of a natural number below `2^128` (every quantity in this model
is far below that). -/
def bits (n : Nat) : Nat := bitsF 128 n

/-- Value of Rust `A as f32` for a `u64` value `A`: round to a 24-bit
significand, nearest, ties to even.  The result is a natural number because
the exponent is nonnegative. -/
def f32OfNat (a : Nat) : Nat :=
  if bits a ≤ 24 then a
  else roundNE a (2 ^ (bits a - 24)) * 2 ^ (bits a - 24)

/-- Numerator over `2^29` of the IEEE-754 binary32 product
`(A as f32) * 0.01f32`; the constant `0.01f32` is exactly `5368709 / 2^29`.
The infinitely precise product is rounded to a 24-bit significand, nearest,
ties to even, which on the numerator is rounding to its top 24 bits. -/
def prodNum (a : Nat) : Nat :=
  let n := f32OfNat a * 5368709
  if bits n ≤ 24 then n
  else roundNE n (2 ^ (bits n - 24)) * 2 ^ (bits n - 24)

/-- The routing-fee allowance in sats computed by the source
(main.rs:257): `(invoice.amount.to_sat() as f32 * 0.01).ceil() as u64`. -/
def feeCode (a : Nat) : Nat := (prodNum a + (2 ^ 29 - 1)) / 2 ^ 29

/-- Modelled from the spec: `fee = ceil(A * 0.01)` sats, exact arithmetic
(spec sections 4.4 and 8). -/
def specFee (a : Nat) : Nat := (a + 99) / 100

/-! ## Checkpoint file model -/

/-- Little-endian byte encoding produced by `u64::to_ne_bytes` (the build
targets a little-endian machine): exactly 8 bytes. -/
def u64ToNeBytes (v : Nat) : List Nat :=
  [v % 256, v / 256 % 256, v / 256 ^ 2 % 256, v / 256 ^ 3 % 256,
   v / 256 ^ 4 % 256, v / 256 ^ 5 % 256, v / 256 ^ 6 % 256, v / 256 ^ 7 % 256]

/-- Inverse of the 8-byte native-endian encoding (`u64::from_ne_bytes`). -/
def u64FromNeBytes (bs : List Nat) : Nat :=
  match bs with
  | [b0, b1, b2, b3, b4, b5, b6, b7] =>
      b0 + 256 * b1 + 256 ^ 2 * b2 + 256 ^ 3 * b3 + 256 ^ 4 * b4 +
        256 ^ 5 * b5 + 256 ^ 6 * b6 + 256 ^ 7 * b7
  | _ => 0

/-- Model of `read_last_pay_index` (main.rs:427-433): open the checkpoint
file, read exactly 8 bytes, decode native-endian.  A missing file or fewer
than 8 bytes is an error.  The file is a `List Nat` of bytes, `none` when
absent. -/
def read_last_pay_index (file : Option (List Nat)) : Except String Nat :=
  match file with
  | none => .error "No such file or directory"
  | some bs =>
      if 8 ≤ bs.length then .ok (u64FromNeBytes (bs.take 8))
      else .error "failed to fill whole buffer"

/-- Model of `write_last_pay_index` (main.rs:436-445): the file content the
write leaves behind. -/
def write_last_pay_index (v : Nat) : List Nat := u64ToNeBytes v

/-- Startup logic of the wait-invoice task (main.rs:232-241): read the
checkpoint; on failure warn, write zero back, and start from zero. -/
def startup_pay_index (file : Option (List Nat)) : Nat × Option (List Nat) :=
  match read_last_pay_index file with
  | .ok idx => (idx, file)
  | .error _ => (0, some (write_last_pay_index 0))

/-! ## Invoice event source model -/

/-- The fields of the CLN `WaitanyinvoiceResponse` the core consumes:
the payment hash (the yielded key) and the optional pay index.  The rest of
the response is carried opaquely by the source (the forwarding loop binds it
as `_invoice` and never reads it). -/
structure WaitanyinvoiceResponse where
  payment_hash : String
  pay_index : Option Nat
deriving DecidableEq

/-- Outcome of one `WaitAnyInvoice` RPC round trip, as seen by
`invoice_stream` (main.rs:375-393): a transport error (retried), a
successfully decoded settled-invoice response, or a response of the wrong
shape (the `try_into().expect(..)` at main.rs:392-393). -/
inductive WaitOutcome where
  | rpcError
  | settled (r : WaitanyinvoiceResponse)
  | wrongShape
deriving DecidableEq

/-- Observable actions of the event-source loop, in program order. -/
inductive StreamEff where
  | callWait (lastpay : Option Nat)
  | warnFetch
  | sleepSec (secs : Nat)
  | writeIndex (i : Nat)
  | yieldEvent (hash : String) (r : WaitanyinvoiceResponse)
deriving DecidableEq

/-- Trace the loop body emits for one successfully decoded response
(main.rs:395-406): record the new pay index, write it to the checkpoint file
when present, then yield `(payment_hash, invoice)`. -/
def settledEffs (idx : Option Nat) (r : WaitanyinvoiceResponse) : List StreamEff :=
  match r.pay_index with
  | some i => [.callWait idx, .writeIndex i, .yieldEvent r.payment_hash r]
  | none => [.callWait idx, .yieldEvent r.payment_hash r]

/-- Model of `invoice_stream` (main.rs:362-411) run against a list of RPC
outcomes: returns the effect trace, the yielded `(hash, invoice)` events and
the final `last_pay_idx` state, or the message of the process-ending failure
when a response of the wrong shape is hit
(`expect("Wrong response from CLN")`).  On a transport error the loop warns,
sleeps one second and retries with the same index. -/
def invoice_stream :
    List WaitOutcome → Option Nat →
      Except String (List StreamEff × List (String × WaitanyinvoiceResponse) × Option Nat)
  | [], idx => .ok ([], [], idx)
  | .rpcError :: rest, idx =>
      match invoice_stream rest idx with
      | .ok (tr, ys, fin) => .ok (.callWait idx :: .warnFetch :: .sleepSec 1 :: tr, ys, fin)
      | .error e => .error e
  | .wrongShape :: _, _ => .error "Wrong response from CLN"
  | .settled r :: rest, idx =>
      match invoice_stream rest r.pay_index with
      | .ok (tr, ys, fin) =>
          .ok (settledEffs idx r ++ tr, (r.payment_hash, r) :: ys, fin)
      | .error e => .error e

/-- Checkpoint values written during a trace, in order. -/
def writesOf : List StreamEff → List Nat
  | [] => []
  | .writeIndex i :: rest => i :: writesOf rest
  | _ :: rest => writesOf rest

/-- Pay indices of the settled events of an outcome list, in order. -/
def indicesOf : List WaitOutcome → List Nat
  | [] => []
  | .settled r :: rest =>
      match r.pay_index with
      | some i => i :: indicesOf rest
      | none => indicesOf rest
  | _ :: rest => indicesOf rest

/-- Events the stream is expected to yield for an outcome list, in order. -/
def eventsOf : List WaitOutcome → List (String × WaitanyinvoiceResponse)
  | [] => []
  | .settled r :: rest => (r.payment_hash, r) :: eventsOf rest
  | _ :: rest => eventsOf rest

/-- Holds when every yielded event carrying a pay index is immediately
preceded in the trace by the checkpoint write of that index, and events
without a pay index are yielded with no preceding write. -/
def persistBeforeYield : List StreamEff → Bool
  | [] => true
  | .writeIndex i :: .yieldEvent _ r :: rest =>
      (r.pay_index == some i) && persistBeforeYield rest
  | .writeIndex _ :: _ => false
  | .yieldEvent _ r :: rest => (r.pay_index == none) && persistBeforeYield rest
  | .callWait _ :: rest => persistBeforeYield rest
  | .warnFetch :: rest => persistBeforeYield rest
  | .sleepSec _ :: rest => persistBeforeYield rest

/-! ## Forwarding engine model -/

/-- The pending-invoice record (`types::PendingInvoice` as used by main.rs;
spec section 3).  The amount is in millisatoshis per the spec's data model;
`Amount::from_sat s` is `1000 * s` and `a.to_sat()` is `a / 1000`. -/
structure PendingInvoice where
  mint : String
  username : String
  description : Option String
  amount : Nat
  hash : String
  bolt11 : String
  last_checked : Option Nat
  proxied : Bool
  time : Nat
deriving DecidableEq

/-- Response of the mint collaborator's `request_mint` (spec section 6):
a fresh payment hash and the bolt11 invoice to pay. -/
structure RequestMintResponse where
  hash : String
  pr : String
deriving DecidableEq

/-- Outcome of the `cashu.request_mint` call as the engine observes it. -/
inductive MintOutcome where
  | err
  | ok (r : RequestMintResponse)
deriving DecidableEq

/-- Outcome of the CLN `Pay` call as the engine observes it
(main.rs:314-325): a pay response, a response of the wrong shape
(logged `Wrong CLN response`), or an RPC error (logged). -/
inductive PayOutcome where
  | payOk (preimage : String)
  | wrongShape
  | rpcError
deriving DecidableEq

/-- The Pending Invoice Ledger, keyed by payment hash.  The database
implementation is not under the source tree; modelled from the spec
(section 4.3: operations `get`, `put`, `remove`) as an association list. -/
def Ledger : Type := List (String × PendingInvoice)

/-- Ledger `get` by payment hash. -/
def dbGet : Ledger → String → Option PendingInvoice
  | [], _ => none
  | (k, v) :: rest, h => if k = h then some v else dbGet rest h

/-- Ledger `remove` by payment hash. -/
def dbRemove : Ledger → String → Ledger
  | [], _ => []
  | (k, v) :: rest, h => if k = h then dbRemove rest h else (k, v) :: dbRemove rest h

/-- Ledger `put`: store a record under its own payment hash, replacing any
record at that key. -/
def dbPut (l : Ledger) (rec : PendingInvoice) : Ledger :=
  (rec.hash, rec) :: dbRemove l rec.hash

/-- Observable actions of one forwarding step, in program order. -/
inductive FwdEff where
  | mintRequest (amount_msat : Nat) (mint : String)
  | warnMint
  | ledgerPut (rec : PendingInvoice)
  | ledgerRemove (hash : String)
  | payCall (bolt11 : String) (maxfee_sat : Nat)
  | debugPaid (preimage : String)
  | warnWrongPay
  | warnPayError
deriving DecidableEq

/-- One iteration of the wait-invoice forwarding loop (main.rs:251-326) for a
settled event with payment hash `hash`: look the hash up in the Ledger; if a
record is present compute the 1% fee, request a mint invoice for
`amount - fee`, store the new pending record (proxied, fresh hash), remove
the old record, and pay the mint invoice capping the routing fee at the
computed fee.  `now` is `unix_time()`; `mintO` and `payO` are the observed
collaborator outcomes.  The source checks only presence of the record — it
never reads its `proxied` field (main.rs:254). -/
def forwardStep (l : Ledger) (hash : String) (now : Nat)
    (mintO : MintOutcome) (payO : PayOutcome) : Ledger × List FwdEff :=
  match dbGet l hash with
  | none => (l, [])
  | some invoice =>
      let fee := feeCode (invoice.amount / 1000)
      let amount := invoice.amount - 1000 * fee
      match mintO with
      | .err => (l, [.mintRequest amount invoice.mint, .warnMint])
      | .ok resp =>
          let pending : PendingInvoice :=
            { mint := invoice.mint
              username := invoice.username
              description := invoice.description
              amount := amount
              hash := resp.hash
              bolt11 := resp.pr
              last_checked := none
              proxied := true
              time := now }
          let l2 := dbRemove (dbPut l pending) invoice.hash
          let payEff : FwdEff :=
            match payO with
            | .payOk pre => .debugPaid pre
            | .wrongShape => .warnWrongPay
            | .rpcError => .warnPayError
          (l2, [.mintRequest amount invoice.mint, .ledgerPut pending,
                .ledgerRemove invoice.hash, .payCall resp.pr fee, payEff])

/-! ## Helper lemmas -/

theorem bitsF_zero (fuel : Nat) : bitsF fuel 0 = 0 := by
  cases fuel <;> rfl

theorem lt_pow_bitsF (fuel : Nat) : ∀ n, n < 2 ^ fuel → n < 2 ^ bitsF fuel n := by
  induction fuel with
  | zero =>
    intro n h
    interval_cases n
    simp [bitsF]
  | succ f ih =>
    intro n h
    by_cases hn : n = 0
    · subst hn; simp [bitsF_zero]
    · have hdiv : n / 2 < 2 ^ f := by
        have : (2 : Nat) ^ (f + 1) = 2 * 2 ^ f := by ring
        omega
      have := ih (n / 2) hdiv
      have hb : bitsF (f + 1) n = bitsF f (n / 2) + 1 := by
        simp [bitsF, hn]
      rw [hb]
      have : (2 : Nat) ^ (bitsF f (n / 2) + 1) = 2 * 2 ^ bitsF f (n / 2) := by ring
      omega

theorem pow_pred_le_bitsF (fuel : Nat) : ∀ n, n ≠ 0 → n < 2 ^ fuel →
    2 ^ (bitsF fuel n - 1) ≤ n := by
  induction fuel with
  | zero =>
    intro n hn h
    simp at h
    omega
  | succ f ih =>
    intro n hn h
    have hb : bitsF (f + 1) n = bitsF f (n / 2) + 1 := by
      simp [bitsF, hn]
    by_cases hn2 : n / 2 = 0
    · have hn1 : n = 1 := by omega
      subst hn1
      rw [hb]
      simp [bitsF_zero]
    · have hdiv : n / 2 < 2 ^ f := by
        have : (2 : Nat) ^ (f + 1) = 2 * 2 ^ f := by ring
        omega
      have h1 := ih (n / 2) hn2 hdiv
      have h2 := lt_pow_bitsF f (n / 2) hdiv
      have hpos : 1 ≤ bitsF f (n / 2) := by
        by_contra hc
        have hz : bitsF f (n / 2) = 0 := by omega
        rw [hz] at h2
        omega
      rw [hb]
      have he : bitsF f (n / 2) + 1 - 1 = (bitsF f (n / 2) - 1) + 1 := by omega
      rw [he, pow_succ]
      omega

theorem roundNE_sandwich (n d : Nat) (hd : 0 < d) :
    2 * n ≤ 2 * (roundNE n d * d) + d ∧ 2 * (roundNE n d * d) ≤ 2 * n + d := by
  have hp : n / d * d + n % d = n := Nat.div_add_mod' n d
  have hr : n % d < d := Nat.mod_lt n hd
  unfold roundNE
  split_ifs with h1 h2 h3
  · constructor <;> omega
  · rw [add_mul, one_mul]
    constructor <;> omega
  · constructor <;> omega
  · rw [add_mul, one_mul]
    constructor <;> omega

theorem dvd_roundNE_mul (n d : Nat) : d ∣ roundNE n d * d :=
  dvd_mul_left d (roundNE n d)

set_option maxHeartbeats 2000000 in
theorem feeCode_eq_specFee (A : Nat) (hA : A ≤ 8388608) : feeCode A = specFee A := by
  by_cases hsmall : A ≤ 3
  · interval_cases A <;> decide
  · have hA4 : 4 ≤ A := by omega
    have hAbits : bits A ≤ 24 := by
      by_contra hc
      have h1 : 2 ^ (bits A - 1) ≤ A :=
        pow_pred_le_bitsF 128 A (by omega) (by
          calc A ≤ 8388608 := hA
          _ < 2 ^ 128 := by norm_num)
      have h2 : (2 : Nat) ^ 24 ≤ 2 ^ (bits A - 1) :=
        Nat.pow_le_pow_right (by norm_num) (by omega)
      norm_num at h2
      omega
    have hA0 : f32OfNat A = A := by
      unfold f32OfNat
      rw [if_pos hAbits]
    have hneq : A * 5368709 ≠ 0 := by positivity
    have hlt : A * 5368709 < 2 ^ 128 := by nlinarith
    have hb1 : 2 ^ (bits (A * 5368709) - 1) ≤ A * 5368709 :=
      pow_pred_le_bitsF 128 _ hneq hlt
    have hb2 : A * 5368709 < 2 ^ bits (A * 5368709) :=
      lt_pow_bitsF 128 _ hlt
    obtain ⟨b, hb⟩ : ∃ b, bits (A * 5368709) = b := ⟨_, rfl⟩
    rw [hb] at hb1 hb2
    have hblo : 25 ≤ b := by
      by_contra hc
      have hle : (2 : Nat) ^ b ≤ 2 ^ 24 := Nat.pow_le_pow_right (by norm_num) (by omega)
      norm_num at hle
      nlinarith
    have hbhi : b ≤ 46 := by
      by_contra hc
      have hle : (2 : Nat) ^ 46 ≤ 2 ^ (b - 1) := Nat.pow_le_pow_right (by norm_num) (by omega)
      norm_num at hle
      nlinarith
    unfold feeCode prodNum specFee
    simp only [hA0, hb]
    rw [if_neg (by omega)]
    have hsand := roundNE_sandwich (A * 5368709) (2 ^ (b - 24)) (by positivity)
    have hdvd := dvd_roundNE_mul (A * 5368709) (2 ^ (b - 24))
    obtain ⟨N, hN⟩ : ∃ N, roundNE (A * 5368709) (2 ^ (b - 24)) * 2 ^ (b - 24) = N :=
      ⟨_, rfl⟩
    rw [hN] at hsand hdvd ⊢
    interval_cases b <;> (norm_num at hb1 hb2 hsand hdvd ⊢; omega)

theorem dbGet_dbRemove_self (l : Ledger) (h : String) : dbGet (dbRemove l h) h = none := by
  induction l with
  | nil => rfl
  | cons p rest ih =>
      obtain ⟨k, v⟩ := p
      by_cases hk : k = h
      · simp [dbRemove, hk, ih]
      · simp [dbRemove, dbGet, hk, ih]

theorem dbGet_dbRemove_ne (l : Ledger) (h h' : String) (hne : h' ≠ h) :
    dbGet (dbRemove l h) h' = dbGet l h' := by
  induction l with
  | nil => rfl
  | cons p rest ih =>
      obtain ⟨k, v⟩ := p
      by_cases hk : k = h
      · subst hk
        simp [dbRemove, dbGet, Ne.symm hne, ih]
      · by_cases hk' : k = h'
        · simp [dbRemove, dbGet, hk, hk', hne]
        · simp [dbRemove, dbGet, hk, hk', ih]

theorem dbGet_dbPut_self (l : Ledger) (r : PendingInvoice) :
    dbGet (dbPut l r) r.hash = some r := by
  simp [dbPut, dbGet]

theorem stream_ok_of_settled : ∀ (outs : List WaitOutcome),
    (∀ o ∈ outs, ∃ r i, o = WaitOutcome.settled r ∧ r.pay_index = some i) →
    ∀ idx, ∃ tr fin, invoice_stream outs idx = .ok (tr, eventsOf outs, fin) ∧
      writesOf tr = indicesOf outs ∧ persistBeforeYield tr = true := by
  intro outs
  induction outs with
  | nil => exact fun _ idx => ⟨[], idx, rfl, rfl, rfl⟩
  | cons o rest ih =>
      intro hall idx
      obtain ⟨r, i, rfl, hpi⟩ := hall o (List.mem_cons_self o rest)
      obtain ⟨tr, fin, heq, hw, hp⟩ :=
        ih (fun o ho => hall o (List.mem_cons_of_mem _ ho)) r.pay_index
      refine ⟨settledEffs idx r ++ tr, fin, ?_, ?_, ?_⟩
      · simp only [invoice_stream, heq, eventsOf]
      · simp [settledEffs, hpi, writesOf, indicesOf, hw]
      · simp only [settledEffs, hpi, List.cons_append]
        simp [persistBeforeYield, hp, hpi]

theorem eventsOf_pay_indices : ∀ (outs : List WaitOutcome),
    (∀ o ∈ outs, ∃ r i, o = WaitOutcome.settled r ∧ r.pay_index = some i) →
    (eventsOf outs).map (fun y => y.2.pay_index) = (indicesOf outs).map some := by
  intro outs
  induction outs with
  | nil => exact fun _ => rfl
  | cons o rest ih =>
      intro hall
      obtain ⟨r, i, rfl, hpi⟩ := hall o (List.mem_cons_self o rest)
      have htl := ih (fun o ho => hall o (List.mem_cons_of_mem _ ho))
      simp [eventsOf, indicesOf, hpi, htl]

/-! ## Claim theorems -/

/-- C1: the claim states that the Forwarding Engine forwards a matched
pending record only when `proxied = true`, and that a matching record with
`proxied = false` triggers no forward.  The source contradicts this (and its
own comment, main.rs:252 "Check if invoice is in db and proxied"): presence
of the record alone triggers the full forward.  Here a Ledger record with
`proxied = false` is matched and the step nevertheless performs the mint
request, the put, the remove and the pay call. -/
theorem forward_executes_on_unproxied_record :
    (⟨"mintA", "alice", none, 100000, "h1", "lnbc1", none, false, 0⟩ :
        PendingInvoice).proxied = false ∧
      (forwardStep [("h1", ⟨"mintA", "alice", none, 100000, "h1", "lnbc1", none, false, 0⟩)]
          "h1" 7 (.ok ⟨"h2", "lnbc2"⟩) (.payOk "pre")).2 =
        [.mintRequest 99000 "mintA",
         .ledgerPut ⟨"mintA", "alice", none, 99000, "h2", "lnbc2", none, true, 7⟩,
         .ledgerRemove "h1", .payCall "lnbc2" 1, .debugPaid "pre"] :=
  ⟨rfl, rfl⟩

/-- C2 (counterexample): the fee the code computes is not `ceil(A * 0.01)`
for every amount; at `A = 13107201` sats the binary32 arithmetic rounds the
product `13107201 * 0.01f32` down to exactly `2^17 = 131072`, while
`ceil(13107201 / 100) = 131073`.  This is the smallest such amount. -/
theorem fee_deviates_at_large_amount :
    feeCode 13107201 = 131072 ∧ specFee 13107201 = 131073 ∧
      feeCode 13107201 ≠ specFee 13107201 := by
  refine ⟨rfl, rfl, ?_⟩
  decide

/-- C2 (amended): for every amount `A ≤ 8388608` sats (2^23, well above the
default `max_sendable` of 1,000,000 sats) the fee the code computes equals
`ceil(A * 0.01)` exactly — in particular `A=1000` gives 10, `A=1` gives 1,
`A=0` gives 0 — and for every matched pending record the amount requested
from the mint is the invoice amount minus `1000 * fee` millisatoshis, i.e.
the invoice amount minus the fee. -/
theorem fee_is_ceil_within_bound :
    (∀ A : Nat, A ≤ 8388608 → feeCode A = specFee A) ∧
      (∀ (l : Ledger) (h : String) (now : Nat) (rec : PendingInvoice)
          (mintO : MintOutcome) (payO : PayOutcome), dbGet l h = some rec →
        ((forwardStep l h now mintO payO).2)[0]? =
          some (.mintRequest (rec.amount - 1000 * feeCode (rec.amount / 1000)) rec.mint)) := by
  constructor
  · exact feeCode_eq_specFee
  · intro l h now rec mintO payO hget
    unfold forwardStep
    rw [hget]
    cases mintO <;> rfl

/-- Witness for C2 (amended): at `A = 1000` and at a concrete matched ledger
record of 100000 msat the fee and the requested mint amount are as claimed. -/
theorem fee_is_ceil_within_bound_w :
    feeCode 1000 = specFee 1000 ∧
      ((forwardStep [("h1", ⟨"mintA", "alice", none, 100000, "h1", "lnbc1", none, true, 0⟩)]
          "h1" 7 (.ok ⟨"h2", "lnbc2"⟩) (.payOk "pre")).2)[0]? =
        some (.mintRequest 99000 "mintA") := by
  constructor
  · exact fee_is_ceil_within_bound.1 1000 (by norm_num)
  · have := fee_is_ceil_within_bound.2
      [("h1", ⟨"mintA", "alice", none, 100000, "h1", "lnbc1", none, true, 0⟩)]
      "h1" 7 ⟨"mintA", "alice", none, 100000, "h1", "lnbc1", none, true, 0⟩
      (.ok ⟨"h2", "lnbc2"⟩) (.payOk "pre") rfl
    simpa using this

/-- C3: for a matched pending record and a successful mint request returning
a fresh hash, after the step the Ledger holds the new record at the mint's
hash with `proxied = true` and the forwarded (fee-reduced) amount, no longer
holds the original hash, and in the step's effect trace the put of the new
record (position 1) precedes the removal of the original (position 2). -/
theorem forward_put_before_remove (l : Ledger) (h : String) (now : Nat)
    (rec : PendingInvoice) (resp : RequestMintResponse) (payO : PayOutcome)
    (hget : dbGet l h = some rec) (hne : resp.hash ≠ rec.hash) :
    ∃ newRec : PendingInvoice,
      newRec.proxied = true ∧
      newRec.hash = resp.hash ∧
      newRec.amount = rec.amount - 1000 * feeCode (rec.amount / 1000) ∧
      dbGet (forwardStep l h now (.ok resp) payO).1 resp.hash = some newRec ∧
      dbGet (forwardStep l h now (.ok resp) payO).1 rec.hash = none ∧
      ((forwardStep l h now (.ok resp) payO).2)[1]? = some (.ledgerPut newRec) ∧
      ((forwardStep l h now (.ok resp) payO).2)[2]? = some (.ledgerRemove rec.hash) := by
  refine ⟨{ mint := rec.mint, username := rec.username, description := rec.description,
            amount := rec.amount - 1000 * feeCode (rec.amount / 1000),
            hash := resp.hash, bolt11 := resp.pr, last_checked := none,
            proxied := true, time := now }, rfl, rfl, rfl, ?_, ?_, ?_, ?_⟩ <;>
    simp only [forwardStep, hget]
  · rw [dbGet_dbRemove_ne _ _ _ hne]
    exact dbGet_dbPut_self l _
  · exact dbGet_dbRemove_self _ _
  · rfl
  · rfl

/-- Witness for C3 at a concrete ledger, mint response and pay outcome. -/
theorem forward_put_before_remove_w :
    ∃ newRec : PendingInvoice,
      newRec.proxied = true ∧
      newRec.hash = "h2" ∧
      newRec.amount = 100000 - 1000 * feeCode (100000 / 1000) ∧
      dbGet (forwardStep [("h1", ⟨"mintA", "alice", none, 100000, "h1", "lnbc1", none, true, 0⟩)]
          "h1" 7 (.ok ⟨"h2", "lnbc2"⟩) (.payOk "pre")).1 "h2" = some newRec ∧
      dbGet (forwardStep [("h1", ⟨"mintA", "alice", none, 100000, "h1", "lnbc1", none, true, 0⟩)]
          "h1" 7 (.ok ⟨"h2", "lnbc2"⟩) (.payOk "pre")).1 "h1" = none ∧
      ((forwardStep [("h1", ⟨"mintA", "alice", none, 100000, "h1", "lnbc1", none, true, 0⟩)]
          "h1" 7 (.ok ⟨"h2", "lnbc2"⟩) (.payOk "pre")).2)[1]? = some (.ledgerPut newRec) ∧
      ((forwardStep [("h1", ⟨"mintA", "alice", none, 100000, "h1", "lnbc1", none, true, 0⟩)]
          "h1" 7 (.ok ⟨"h2", "lnbc2"⟩) (.payOk "pre")).2)[2]? = some (.ledgerRemove "h1") := by
  have := forward_put_before_remove
    [("h1", ⟨"mintA", "alice", none, 100000, "h1", "lnbc1", none, true, 0⟩)]
    "h1" 7 ⟨"mintA", "alice", none, 100000, "h1", "lnbc1", none, true, 0⟩
    ⟨"h2", "lnbc2"⟩ (.payOk "pre") rfl (by decide)
  exact this

/-- C4: over any run in which every RPC outcome is a successfully decoded
settled event carrying a pay index, and the node delivers those indices in
non-decreasing order, the stream succeeds, yields exactly those events,
writes exactly those indices to the checkpoint (each one immediately before
yielding its event), the written checkpoint values are non-decreasing, and
the last value persisted equals the pay index of the most recently yielded
event. -/
theorem checkpoint_persisted_monotone (outs : List WaitOutcome)
    (hall : ∀ o ∈ outs, ∃ r i, o = WaitOutcome.settled r ∧ r.pay_index = some i)
    (hmono : (indicesOf outs).Chain' (· ≤ ·)) (idx : Option Nat) :
    ∃ tr fin, invoice_stream outs idx = .ok (tr, eventsOf outs, fin) ∧
      writesOf tr = indicesOf outs ∧
      persistBeforeYield tr = true ∧
      (writesOf tr).Chain' (· ≤ ·) ∧
      (writesOf tr).getLast? = ((eventsOf outs).getLast?).bind (fun y => y.2.pay_index) := by
  obtain ⟨tr, fin, heq, hw, hp⟩ := stream_ok_of_settled outs hall idx
  have hmap := eventsOf_pay_indices outs hall
  refine ⟨tr, fin, heq, hw, hp, hw ▸ hmono, ?_⟩
  rw [hw]
  have h1 : ((eventsOf outs).map (fun y => y.2.pay_index)).getLast? =
      ((indicesOf outs).map some).getLast? := by rw [hmap]
  rw [List.getLast?_map, List.getLast?_map] at h1
  cases he : (eventsOf outs).getLast? with
  | none =>
      cases hi : (indicesOf outs).getLast? with
      | none => rfl
      | some j => rw [he, hi] at h1; simp at h1
  | some y =>
      cases hi : (indicesOf outs).getLast? with
      | none => rw [he, hi] at h1; simp at h1
      | some j =>
          rw [he, hi] at h1
          simp at h1
          simp [h1]

/-- Witness for C4: two settled events with pay indices 1 then 2. -/
theorem checkpoint_persisted_monotone_w :
    ∃ tr fin,
      invoice_stream [.settled ⟨"h1", some 1⟩, .settled ⟨"h2", some 2⟩] (some 0) =
        .ok (tr, eventsOf [.settled ⟨"h1", some 1⟩, .settled ⟨"h2", some 2⟩], fin) ∧
      writesOf tr = indicesOf [.settled ⟨"h1", some 1⟩, .settled ⟨"h2", some 2⟩] ∧
      persistBeforeYield tr = true ∧
      (writesOf tr).Chain' (· ≤ ·) ∧
      (writesOf tr).getLast? =
        ((eventsOf [.settled ⟨"h1", some 1⟩, .settled ⟨"h2", some 2⟩]).getLast?).bind
          (fun y => y.2.pay_index) := by
  apply checkpoint_persisted_monotone
  · intro o ho
    simp only [List.mem_cons, List.not_mem_nil, or_false] at ho
    rcases ho with rfl | rfl
    · exact ⟨_, 1, rfl, rfl⟩
    · exact ⟨_, 2, rfl, rfl⟩
  · rw [show indicesOf [.settled ⟨"h1", some 1⟩, .settled ⟨"h2", some 2⟩] = [1, 2] from rfl]
    simp [List.chain'_cons]

/-- C5: when the wait-call fails `k` times and then succeeds, the stream
yields exactly one event; during the failures every retry is issued with the
same unchanged index, each failure is followed by a one-second sleep, and no
checkpoint write occurs before the success (the whole trace is exhibited
explicitly). -/
theorem retry_same_index_then_yield_once (k : Nat) (r : WaitanyinvoiceResponse)
    (idx : Option Nat) :
    invoice_stream (List.replicate k .rpcError ++ [.settled r]) idx =
      .ok ((List.replicate k [StreamEff.callWait idx, .warnFetch, .sleepSec 1]).flatten
             ++ settledEffs idx r,
           [(r.payment_hash, r)], r.pay_index) := by
  induction k with
  | zero => simp [invoice_stream]
  | succ n ih =>
      rw [List.replicate_succ, List.replicate_succ]
      simp only [List.cons_append, invoice_stream, List.append_eq, ih]
      simp [List.append_assoc]

/-- C6 (counterexample): the claim states that an unexpected RPC response
shape never terminates the event loop, for every RPC call including the
wait-for-invoice call.  But a wrong-shaped response to the wait-for-invoice
call hits `expect("Wrong response from CLN")` (main.rs:392-393) and ends the
task instead of being dropped. -/
theorem wrong_shape_wait_terminates :
    invoice_stream [.wrongShape] (some 1) = .error "Wrong response from CLN" := rfl

/-- C6 (amended): a wrong-shaped response to the Pay call is only logged —
the Ledger outcome and the shape of the step's effects are identical to the
successful-pay case, so the event is dropped and processing continues —
whereas a wrong-shaped response to the wait-for-invoice call terminates the
event-source task with the `expect` failure. -/
theorem wrong_shape_pay_logged_wait_fatal :
    (∀ (l : Ledger) (h : String) (now : Nat) (mintO : MintOutcome) (pre : String),
        (forwardStep l h now mintO .wrongShape).1 =
          (forwardStep l h now mintO (.payOk pre)).1 ∧
        (forwardStep l h now mintO .wrongShape).2.length =
          (forwardStep l h now mintO (.payOk pre)).2.length) ∧
      (∀ (outs : List WaitOutcome) (idx : Option Nat),
        invoice_stream (.wrongShape :: outs) idx = .error "Wrong response from CLN") := by
  constructor
  · intro l h now mintO pre
    unfold forwardStep
    cases hg : dbGet l h with
    | none => exact ⟨rfl, rfl⟩
    | some invoice => cases mintO <;> exact ⟨rfl, rfl⟩
  · intro outs idx
    rfl

/-- C7: whenever reading the checkpoint fails (file absent, or shorter than
8 bytes), the startup logic returns index zero and immediately writes the
zero encoding back to the file; reading the repaired file then succeeds with
zero, so a missing checkpoint is self-healing. -/
theorem checkpoint_self_healing (file : Option (List Nat))
    (h : ∃ e, read_last_pay_index file = .error e) :
    startup_pay_index file = (0, some (u64ToNeBytes 0)) ∧
      read_last_pay_index (some (u64ToNeBytes 0)) = .ok 0 := by
  obtain ⟨e, he⟩ := h
  refine ⟨?_, by rfl⟩
  simp [startup_pay_index, he, write_last_pay_index]

/-- Witness for C7: the absent file. -/
theorem checkpoint_self_healing_w :
    startup_pay_index none = (0, some (u64ToNeBytes 0)) ∧
      read_last_pay_index (some (u64ToNeBytes 0)) = .ok 0 :=
  checkpoint_self_healing none ⟨"No such file or directory", rfl⟩

/-- C8: a settled event whose payment hash has no matching Ledger record
produces no mint request, no pay call and no Ledger mutation — the step
returns the unchanged ledger and an empty effect list. -/
theorem forward_skips_unknown_hash (l : Ledger) (h : String) (now : Nat)
    (mintO : MintOutcome) (payO : PayOutcome) (habs : dbGet l h = none) :
    forwardStep l h now mintO payO = (l, []) := by
  simp [forwardStep, habs]

/-- Witness for C8: the empty ledger and an arbitrary hash. -/
theorem forward_skips_unknown_hash_w :
    dbGet [] "h9" = none ∧ forwardStep [] "h9" 3 .err .rpcError = ([], []) :=
  ⟨rfl, forward_skips_unknown_hash [] "h9" 3 .err .rpcError rfl⟩

/-- C9: the checkpoint encoding is exactly 8 bytes of the native-endian
`u64`, and for every `u64` value `v` writing `v` and reading the file back
returns exactly `v`. -/
theorem checkpoint_roundtrip (v : Nat) (h : v < 2 ^ 64) :
    (u64ToNeBytes v).length = 8 ∧
      read_last_pay_index (some (u64ToNeBytes v)) = .ok v := by
  refine ⟨rfl, ?_⟩
  have htake : (u64ToNeBytes v).take 8 = u64ToNeBytes v := rfl
  have hdec : u64FromNeBytes (u64ToNeBytes v) = v := by
    simp only [u64ToNeBytes, u64FromNeBytes]
    norm_num
    omega
  simp only [read_last_pay_index]
  rw [if_pos (by simp [u64ToNeBytes])]
  rw [htake, hdec]

/-- Witness for C9 at `v = 0x0123456789ABCDEF`. -/
theorem checkpoint_roundtrip_w :
    (u64ToNeBytes 81985529216486895).length = 8 ∧
      read_last_pay_index (some (u64ToNeBytes 81985529216486895)) =
        .ok 81985529216486895 :=
  checkpoint_roundtrip 81985529216486895 (by norm_num)

/-- C10: a settled event delivered without a pay index is still yielded,
nothing is written to the checkpoint file (its trace is just the wait call
and the yield), and the stream continues with no last index — the next wait
call is issued with `none` rather than the previous index. -/
theorem yield_without_pay_index (r : WaitanyinvoiceResponse) (rest : List WaitOutcome)
    (idx : Option Nat) (h : r.pay_index = none) :
    invoice_stream (.settled r :: rest) idx =
      (invoice_stream rest none).map
        (fun x => ([StreamEff.callWait idx, .yieldEvent r.payment_hash r] ++ x.1,
                   (r.payment_hash, r) :: x.2.1, x.2.2)) := by
  have hs : settledEffs idx r = [.callWait idx, .yieldEvent r.payment_hash r] := by
    simp [settledEffs, h]
  simp only [invoice_stream, h, hs]
  cases hres : invoice_stream rest none with
  | ok x =>
      obtain ⟨tr, ys, fin⟩ := x
      simp [Except.map]
  | error e => simp [Except.map]

/-- Witness for C10: one settled event with no pay index. -/
theorem yield_without_pay_index_w :
    invoice_stream [.settled ⟨"hx", none⟩] (some 5) =
      .ok ([StreamEff.callWait (some 5), .yieldEvent "hx" ⟨"hx", none⟩],
           [("hx", ⟨"hx", none⟩)], none) := by
  have := yield_without_pay_index ⟨"hx", none⟩ [] (some 5) rfl
  simpa [invoice_stream, Except.map] using this
